import Mathlib
/-!
Verification of the execd command execution and streaming runtime
(OpenSandbox): a shallow embedding of the Tailer (`tailStdPipe`,
`readFromPos` and the scanner split function from
`components/execd/pkg/runtime/command_common.go`), the session registry
(`getCommandKernel` / `storeCommandKernel`), the status and seek API, and
the query-parameter helper `QueryInt64` from
`components/execd/pkg/web/controller/basic.go`.

File content is modelled as a `List Char`; byte offsets are `Nat`.
Filesystem faults (a file that cannot be opened) are modelled as an
explicit `openOk` flag supplied by the environment.
-/

/-- Model of the anonymous `bufio.SplitFunc` installed by `readFromPos`
via `scanner.Split`: scan `data` for the first `\n` or `\r`; a `\r`
immediately followed by `\n` in the available data is consumed as one
delimiter (advance i+2); otherwise advance past the single delimiter.
If no delimiter is present and `atEOF` holds with nonempty data, the
whole remainder is the final token; otherwise request more data
(`none`, modelling `return 0, nil, nil`). -/
def splitFunc : List Char → Bool → Option (Nat × List Char)
  | [], _ => none
  | b :: rest, atEOF =>
    if b = '\n' then
      some (1, [])
    else if b = '\r' then
      match rest with
      | '\n' :: _ => some (2, [])
      | _ => some (1, [])
    else
      match splitFunc rest atEOF with
      | some (adv, tok) => some (adv + 1, b :: tok)
      | none => if atEOF then some (rest.length + 1, b :: rest) else none

/-- The maximum token size passed to `scanner.Buffer` in `readFromPos`:
`5*1024*1024` (5MB max token). -/
def maxRecordSize : Nat := 5 * 1024 * 1024

/-- Take-`max` view of the `bufio.Scanner` loop in `readFromPos` driving
`splitFunc` over the data available in the file: while `max` or more
bytes remain, the scanner's buffer can hold at most the first `max`
bytes of them and `atEOF` is false — if no token can be produced from a
buffer full at the cap the scan fails with `ErrTooLong` (second
component `true`), because the buffer fills before EOF can be observed;
only once the remaining data is strictly smaller than the cap can the
reader observe EOF (a read returning `io.EOF`) and `atEOF` become true.
Returns the tokens delivered to `onExecute` (also those delivered before
a scan error) and whether the scan errored. This view collapses the
incremental read windows of the real scanner (modelled in full by
`scanLoopF` below): the error flag and, for data free of `\r`, the
token sequence agree with the windowed reader; token sequences can
differ only where a `\r\n` pair straddles an intermediate read-window
boundary, which the record-boundary scopes of the theorems below avoid.
The fuel argument is only a termination device; `scanTokens` supplies
`data.length`, which always suffices because every produced token
advances by at least one byte. -/
def scanTokensF (max : Nat) : Nat → List Char → List (List Char) × Bool
  | _, [] => ([], false)
  | 0, _ => ([], false)
  | fuel + 1, d =>
    if d.length < max then
      match splitFunc d true with
      | some (adv, tok) =>
          let r := scanTokensF max fuel (d.drop adv)
          (tok :: r.1, r.2)
      | none => ([], false)
    else
      match splitFunc (d.take max) false with
      | some (adv, tok) =>
          let r := scanTokensF max fuel (d.drop adv)
          (tok :: r.1, r.2)
      | none => ([], true)

/-- Scanner run of `readFromPos` on the data after the seek position:
tokens emitted plus the error flag (`scanner.Err() != nil`). -/
def scanTokens (max : Nat) (data : List Char) : List (List Char) × Bool :=
  scanTokensF max data.length data

/-- Result of one `readFromPos` call: the records passed to `onExecute`
and the returned offset. -/
structure ReadResult where
  emitted : List (List Char)
  endPos : Nat
deriving DecidableEq, Repr

/-- Model of `readFromPos(filepath, startPos, onExecute)`: open the file
(`openOk` false models an `os.Open` error, returning `startPos` with
nothing emitted), seek to `startPos`, scan the remaining content. On a
scan error the already-produced tokens were emitted but the function
returns `startPos`; on success it returns the position reached by the
reader (`file.Seek(0, 1)`), which is the end of the file, or `startPos`
itself when the seek was beyond the end. -/
def readFromPos (openOk : Bool) (content : List Char) (startPos : Nat) : ReadResult :=
  if openOk then
    let r := scanTokens maxRecordSize (content.drop startPos)
    if r.2 then ⟨r.1, startPos⟩ else ⟨r.1, Nat.max startPos content.length⟩
  else ⟨[], startPos⟩

/-- One event observed by the `tailStdPipe` select loop: a ticker fire
(the poll reads the file's snapshot at that moment, `openOk` modelling
whether the open succeeds) or the `done` channel firing (the final
snapshot is drained). -/
inductive TailEvent where
  | tick (openOk : Bool) (snap : List Char)
  | doneSig (openOk : Bool) (snap : List Char)
deriving DecidableEq, Repr

/-- Whether a tail event is a ticker fire. -/
def TailEvent.isTick : TailEvent → Bool
  | .tick _ _ => true
  | .doneSig _ _ => false

/-- Model of the `tailStdPipe` loop: starting from offset `lastPos` with
records `acc` already delivered, process the events in order. A tick runs
`readFromPos` and updates `lastPos`; the first `done` runs one final
`readFromPos` from the last known offset and returns. A run in which
`done` never fires loops forever (`none`). -/
def tailStdPipe (lastPos : Nat) (acc : List (List Char)) : List TailEvent → Option (List (List Char))
  | [] => none
  | .tick ok s :: rest =>
      let r := readFromPos ok s lastPos
      tailStdPipe r.endPos (acc ++ r.emitted) rest
  | .doneSig ok s :: _ =>
      some (acc ++ (readFromPos ok s lastPos).emitted)

/-- Content of a capture file in which each line is terminated by `\n`. -/
def encodeLF : List (List Char) → List Char
  | [] => []
  | L :: ls => L ++ '\n' :: encodeLF ls

/-- Content of a capture file in which each line is terminated by `\r\n`. -/
def encodeCRLF : List (List Char) → List Char
  | [] => []
  | L :: ls => L ++ '\r' :: '\n' :: encodeCRLF ls

/-- A record's text contains no delimiter character. -/
def cleanLine (L : List Char) : Prop := ∀ c ∈ L, c ≠ '\n' ∧ c ≠ '\r'

instance cleanLineDec (L : List Char) : Decidable (cleanLine L) :=
  inferInstanceAs (Decidable (∀ c ∈ L, c ≠ '\n' ∧ c ≠ '\r'))

/-- Poll schedule of a foreground run in which every poll observes the
capture file at a record boundary: starting from content `base`, each
tick observes the previous content extended by the `\n`-terminated lines
of the next chunk, and after the last chunk the `done` signal fires with
the file unchanged. All opens succeed. -/
def snapshotEvents : List Char → List (List (List Char)) → List TailEvent
  | base, [] => [TailEvent.doneSig true base]
  | base, c :: cs => TailEvent.tick true (base ++ encodeLF c) :: snapshotEvents (base ++ encodeLF c) cs

/-- Initial read-buffer length passed to `scanner.Buffer` in
`readFromPos`: `make([]byte, 0, 64*1024)` gives a 64KB buffer (`Buffer`
keeps `buf[0:cap(buf)]`, so `len(s.buf)` starts at 65536). -/
def initialScanWindow : Nat := 64 * 1024

/-- Model of `bufio.Scanner.Scan`'s read loop at the fidelity of its
read windows, as configured by `readFromPos`: `buffered` is
`buf[start:end]`, `bufCap` is `len(s.buf)` (initially 64KB, grown when
full without a token by doubling — a zero size falls back to the 4096
start size — capped at `max`), `remaining` is the unread part of the
file and `atEOF` records that a read returned `io.EOF`. Each step first
offers the buffered window to the split function (`atEOF` is true only
once EOF was observed). With no token: at EOF the scan ends cleanly
(`io.EOF` is not an error); otherwise the scanner reads — a buffer full
at the cap fails with `ErrTooLong`, a full smaller buffer grows first,
and a read takes the next `bufCap - buffered.length` bytes of the file
(for a file that does not grow during the scan every read fills the
buffer, so read windows end at those boundaries; the buffer compaction
in `Scan` only moves bytes and needs no representation). The fuel only
forces termination and is never exhausted when `2*length+8` is
supplied, as `scannerRun` does: every step emits a token consuming at
least one buffered byte, consumes at least one remaining byte, sets
`atEOF` (at most once), or stops. -/
def scanLoopF (max : Nat) : Nat → List Char → Nat → List Char → Bool → List (List Char) × Bool
  | 0, _, _, _, _ => ([], false)
  | fuel + 1, buffered, bufCap, remaining, atEOF =>
    match splitFunc buffered atEOF with
    | some (adv, tok) =>
        let r := scanLoopF max fuel (buffered.drop adv) bufCap remaining atEOF
        (tok :: r.1, r.2)
    | none =>
        if atEOF then ([], false)
        else if buffered.length = bufCap then
          if max ≤ bufCap then ([], true)
          else
            let grown := if bufCap * 2 = 0 then 4096 else bufCap * 2
            let newCap := Nat.min grown max
            if remaining.isEmpty then scanLoopF max fuel buffered newCap remaining true
            else
              scanLoopF max fuel (buffered ++ remaining.take (newCap - buffered.length)) newCap
                (remaining.drop (newCap - buffered.length)) false
        else if remaining.isEmpty then scanLoopF max fuel buffered bufCap remaining true
        else
          scanLoopF max fuel (buffered ++ remaining.take (bufCap - buffered.length)) bufCap
            (remaining.drop (bufCap - buffered.length)) false

/-- Run of the scanner of `readFromPos` on a static file's content with
the incremental read windows represented: the records produced and
whether the scan errored (`scanner.Err() != nil`). -/
def scannerRun (max window : Nat) (content : List Char) : List (List Char) × Bool :=
  scanLoopF max (2 * content.length + 8) [] window content false

/-- The session kernel stored in the registry
(`commandKernel` in `command_common.go` / `command_status_test.go`):
process id, capture file paths, background flag, timestamps (modelled as
`Nat` ticks), optional finish data and the running flag. -/
structure CommandKernel where
  pid : Int
  stdoutPath : String
  stderrPath : String
  isBackground : Bool
  startedAt : Nat
  finishedAt : Option Nat
  exitCode : Option Int
  errMsg : String
  running : Bool
deriving DecidableEq, Repr

/-- The session registry: `Controller.commandClientMap`, a Go map from
session id to kernel. A Go map read of an absent key yields the zero
value (`nil` for a pointer), modelled as `none`. -/
def Registry : Type := String → Option CommandKernel

/-- A freshly constructed controller has an empty map. -/
def emptyRegistry : Registry := fun _ => none

/-- Model of `Controller.getCommandKernel`: map lookup under `RLock`. -/
def getCommandKernel (r : Registry) (sessionID : String) : Option CommandKernel :=
  r sessionID

/-- Model of `Controller.storeCommandKernel`: map insert under `Lock`. -/
def storeCommandKernel (r : Registry) (sessionID : String) (kernel : CommandKernel) : Registry :=
  fun s => if s = sessionID then some kernel else r s

/-- A sequence of `storeCommandKernel` calls applied to a fresh registry. -/
def applyStores (l : List (String × CommandKernel)) : Registry :=
  l.foldl (fun r p => storeCommandKernel r p.1 p.2) emptyRegistry

/-- Modelled from the spec: one execution-engine mutation of the
registry. The Execution Engine's code that registers a kernel on accept
(`running=true, startedAt=now`, no finish data) and updates it on
completion (`running=false`, `finishedAt`, `exitCode` or `errMsg`) is
not part of the available sources (only its registry, tests and HTTP
callers are), so the two mutations described in spec §4.4 are modelled
as operations. -/
inductive RegOp where
  | start (id : String) (pid : Int) (stdoutPath stderrPath : String)
      (isBackground : Bool) (startedAt : Nat)
  | finish (id : String) (finishedAt : Nat) (exitCode : Option Int) (errMsg : String)
deriving DecidableEq, Repr

/-- Session id targeted by a registry operation. -/
def RegOp.sid : RegOp → String
  | .start id _ _ _ _ _ => id
  | .finish id _ _ _ => id

/-- Modelled from the spec: apply one engine mutation. `start` registers
a running kernel with no finish data; `finish` looks the kernel up and,
when present, sets `running := false` together with `finishedAt` and the
reported `exitCode` (absent when the process could not report one). -/
def applyOp (r : Registry) : RegOp → Registry
  | .start id pid so se bg t =>
      storeCommandKernel r id
        { pid := pid, stdoutPath := so, stderrPath := se, isBackground := bg,
          startedAt := t, finishedAt := none, exitCode := none, errMsg := "",
          running := true }
  | .finish id t code msg =>
      match getCommandKernel r id with
      | none => r
      | some k =>
          storeCommandKernel r id
            { k with
              running := false,
              finishedAt := some t,
              exitCode := code,
              errMsg := msg }

/-- Registry reached by a sequence of engine operations from a fresh
controller. -/
def runOps (ops : List RegOp) : Registry :=
  ops.foldl applyOp emptyRegistry

/-- The status value returned by `GetCommandStatus`
(session id, running flag, optional exit code and finish time, start
time and error message). -/
structure CommandStatus where
  session : String
  running : Bool
  exitCode : Option Int
  startedAt : Nat
  finishedAt : Option Nat
  errMsg : String
deriving DecidableEq, Repr

/-- Modelled from the spec: `GetCommandStatus(sessionID)` of the runtime
controller (only its HTTP caller and tests are in the available
sources). Spec §4.5: fails with `NotFound` when the session id is
unknown; otherwise reflects the latest registry state of the kernel. -/
def GetCommandStatus (r : Registry) (sessionID : String) : Except String CommandStatus :=
  match getCommandKernel r sessionID with
  | none => Except.error ("session not found: " ++ sessionID)
  | some k =>
      Except.ok
        { session := sessionID, running := k.running, exitCode := k.exitCode,
          startedAt := k.startedAt, finishedAt := k.finishedAt, errMsg := k.errMsg }

/-- Modelled from the spec: `SeekBackgroundCommandOutput(sessionID,
cursor)` of the runtime controller (only its HTTP caller and tests are
in the available sources). Spec §4.5: unknown session fails; otherwise
the captured stdout since `cursor` is returned together with the new
cursor; a cursor at or beyond the current file length returns an empty
result and the unchanged cursor, not an error. `files` models the
filesystem, mapping a capture path to its current content. -/
def SeekBackgroundCommandOutput (r : Registry) (files : String → List Char)
    (sessionID : String) (cursor : Nat) : Except String (List Char × Nat) :=
  match getCommandKernel r sessionID with
  | none => Except.error ("session not found: " ++ sessionID)
  | some k =>
      let content := files k.stdoutPath
      if content.length ≤ cursor then Except.ok ([], cursor)
      else Except.ok (content.drop cursor, content.length)

/-- Model of Go `strconv.ParseInt(query, 10, 64)` as used by
`QueryInt64`: an optional single `+`/`-` sign followed by at least one
decimal digit, rejecting anything else, and rejecting values outside the
signed 64-bit range (Go reports `ErrRange` there, which is a non-nil
error to the caller). -/
def parseInt64 (s : String) : Option Int :=
  let signStrip : Bool × List Char :=
    match s.data with
    | '-' :: rest => (true, rest)
    | '+' :: rest => (false, rest)
    | cs => (false, cs)
  let neg := signStrip.1
  let ds := signStrip.2
  if ds.isEmpty then none
  else if ds.all Char.isDigit then
    let n : Nat := ds.foldl (fun a c => a * 10 + (c.toNat - 48)) 0
    let v : Int := if neg then -(n : Int) else (n : Int)
    if v < -(2 ^ 63) ∨ (2 ^ 63 - 1 : Int) < v then none else some v
  else none

/-- Model of `basicController.QueryInt64` from
`components/execd/pkg/web/controller/basic.go`: parse the query string
as a signed 64-bit integer and fall back to `defaultValue` on any parse
error. -/
def QueryInt64 (query : String) (defaultValue : Int) : Int :=
  match parseInt64 query with
  | none => defaultValue
  | some v => v

/-- Kernel lifecycle invariant of spec §3: no finish data while running,
and a finish time (the exit code may be absent) once not running. -/
def kernelConsistent (k : CommandKernel) : Prop :=
  (k.running = true → k.finishedAt = none ∧ k.exitCode = none) ∧
  (k.running = false → k.finishedAt ≠ none)

/-- Every kernel stored in the registry satisfies the lifecycle
invariant. -/
def registryConsistent (r : Registry) : Prop :=
  ∀ id k, getCommandKernel r id = some k → kernelConsistent k

theorem splitFunc_pos (d : List Char) (atEOF : Bool) (adv : Nat) (tok : List Char)
    (h : splitFunc d atEOF = some (adv, tok)) : 1 ≤ adv := by
  induction d generalizing adv tok with
  | nil => simp [splitFunc] at h
  | cons b rest ih =>
    simp only [splitFunc] at h
    split at h
    · simp at h; omega
    · split at h
      · split at h <;> (simp at h; omega)
      · revert h
        split
        · rename_i adv' tok' heq
          intro h
          simp at h
          omega
        · split
          · intro h; simp at h; omega
          · intro h; simp at h

theorem splitFunc_clean_none (L : List Char) (h : cleanLine L) :
    splitFunc L false = none := by
  induction L with
  | nil => simp [splitFunc]
  | cons b rest ih =>
    have hb := h b (by simp)
    have hr : cleanLine rest := fun c hc => h c (by simp [hc])
    simp only [splitFunc, if_neg hb.1, if_neg hb.2]
    rw [ih hr]
    rfl

theorem splitFunc_clean_eof (L : List Char) (h : cleanLine L) (hne : L ≠ []) :
    splitFunc L true = some (L.length, L) := by
  induction L with
  | nil => simp at hne
  | cons b rest ih =>
    have hb := h b (by simp)
    have hr : cleanLine rest := fun c hc => h c (by simp [hc])
    by_cases hrest : rest = []
    · subst hrest
      simp [splitFunc, hb.1, hb.2]
    · simp only [splitFunc, if_neg hb.1, if_neg hb.2]
      rw [ih hr hrest]
      rfl

theorem splitFunc_lf (L rest : List Char) (atEOF : Bool) (h : cleanLine L) :
    splitFunc (L ++ '\n' :: rest) atEOF = some (L.length + 1, L) := by
  induction L with
  | nil => simp [splitFunc]
  | cons b L' ih =>
    have hb := h b (by simp)
    have hL' : cleanLine L' := fun c hc => h c (by simp [hc])
    simp only [List.cons_append, splitFunc, if_neg hb.1, if_neg hb.2, List.append_eq]
    rw [ih hL']
    rfl

theorem splitFunc_crlf (L rest : List Char) (atEOF : Bool) (h : cleanLine L) :
    splitFunc (L ++ '\r' :: '\n' :: rest) atEOF = some (L.length + 2, L) := by
  induction L with
  | nil => simp [splitFunc]
  | cons b L' ih =>
    have hb := h b (by simp)
    have hL' : cleanLine L' := fun c hc => h c (by simp [hc])
    simp only [List.cons_append, splitFunc, if_neg hb.1, if_neg hb.2, List.append_eq]
    rw [ih hL']
    rfl

theorem scanTokensF_nil (max fuel : Nat) : scanTokensF max fuel [] = ([], false) := by
  cases fuel <;> rfl

theorem scanTokensF_some_small (max fuel : Nat) (d : List Char) (adv : Nat) (tok : List Char)
    (hle : d.length < max) (hsp : splitFunc d true = some (adv, tok)) :
    scanTokensF max (fuel + 1) d =
      (tok :: (scanTokensF max fuel (d.drop adv)).1, (scanTokensF max fuel (d.drop adv)).2) := by
  cases d with
  | nil => simp [splitFunc] at hsp
  | cons a t =>
    simp only [scanTokensF, if_pos hle]
    rw [hsp]

theorem scanTokensF_none_small (max fuel : Nat) (d : List Char)
    (hle : d.length < max) (hsp : splitFunc d true = none) :
    scanTokensF max (fuel + 1) d = ([], false) := by
  cases d with
  | nil => rfl
  | cons a t =>
    simp only [scanTokensF, if_pos hle]
    rw [hsp]

theorem scanTokensF_some_big (max fuel : Nat) (d : List Char) (adv : Nat) (tok : List Char)
    (hle : ¬ d.length < max) (hsp : splitFunc (d.take max) false = some (adv, tok)) :
    scanTokensF max (fuel + 1) d =
      (tok :: (scanTokensF max fuel (d.drop adv)).1, (scanTokensF max fuel (d.drop adv)).2) := by
  cases d with
  | nil => simp [List.take_nil, splitFunc] at hsp
  | cons a t =>
    simp only [scanTokensF, if_neg hle]
    rw [hsp]

theorem scanTokensF_none_big (max fuel : Nat) (d : List Char) (hne : d ≠ [])
    (hle : ¬ d.length < max) (hsp : splitFunc (d.take max) false = none) :
    scanTokensF max (fuel + 1) d = ([], true) := by
  cases d with
  | nil => exact absurd rfl hne
  | cons a t =>
    simp only [scanTokensF, if_neg hle]
    rw [hsp]

theorem scanTokensF_fuel (max : Nat) :
    ∀ fuel₁ fuel₂ d, d.length ≤ fuel₁ → d.length ≤ fuel₂ →
      scanTokensF max fuel₁ d = scanTokensF max fuel₂ d := by
  intro fuel₁
  induction fuel₁ with
  | zero =>
    intro fuel₂ d h1 _
    have hd : d = [] := List.length_eq_zero.mp (Nat.le_zero.mp h1)
    subst hd
    rw [scanTokensF_nil, scanTokensF_nil]
  | succ f ih =>
    intro fuel₂ d h1 h2
    cases d with
    | nil => rw [scanTokensF_nil, scanTokensF_nil]
    | cons a t =>
      cases fuel₂ with
      | zero => simp at h2
      | succ f₂ =>
        by_cases hle : (a :: t).length < max
        · cases hsp : splitFunc (a :: t) true with
          | none =>
            rw [scanTokensF_none_small _ _ _ hle hsp, scanTokensF_none_small _ _ _ hle hsp]
          | some p =>
            obtain ⟨adv, tok⟩ := p
            have hadv := splitFunc_pos _ _ _ _ hsp
            have hl1 : ((a :: t).drop adv).length ≤ f := by
              simp only [List.length_drop, List.length_cons] at h1 ⊢
              omega
            have hl2 : ((a :: t).drop adv).length ≤ f₂ := by
              simp only [List.length_drop, List.length_cons] at h2 ⊢
              omega
            rw [scanTokensF_some_small _ _ _ _ _ hle hsp,
               scanTokensF_some_small _ _ _ _ _ hle hsp, ih f₂ _ hl1 hl2]
        · cases hsp : splitFunc ((a :: t).take max) false with
          | none =>
            rw [scanTokensF_none_big _ _ _ (List.cons_ne_nil a t) hle hsp,
               scanTokensF_none_big _ _ _ (List.cons_ne_nil a t) hle hsp]
          | some p =>
            obtain ⟨adv, tok⟩ := p
            have hadv := splitFunc_pos _ _ _ _ hsp
            have hl1 : ((a :: t).drop adv).length ≤ f := by
              simp only [List.length_drop, List.length_cons] at h1 ⊢
              omega
            have hl2 : ((a :: t).drop adv).length ≤ f₂ := by
              simp only [List.length_drop, List.length_cons] at h2 ⊢
              omega
            rw [scanTokensF_some_big _ _ _ _ _ hle hsp,
               scanTokensF_some_big _ _ _ _ _ hle hsp, ih f₂ _ hl1 hl2]

theorem drop_after_line (L : List Char) (c : Char) (t : List Char) :
    (L ++ c :: t).drop (L.length + 1) = t := by
  rw [show L ++ c :: t = (L ++ [c]) ++ t by simp,
     show L.length + 1 = (L ++ [c]).length by simp, List.drop_left]

theorem drop_after_crlf (L t : List Char) :
    (L ++ '\r' :: '\n' :: t).drop (L.length + 2) = t := by
  rw [show L ++ '\r' :: '\n' :: t = (L ++ ['\r', '\n']) ++ t by simp,
     show L.length + 2 = (L ++ ['\r', '\n']).length by simp, List.drop_left]

theorem take_through_line (L : List Char) (c : Char) (t : List Char) (n : Nat)
    (h : L.length + 1 ≤ n) :
    (L ++ c :: t).take n = L ++ c :: t.take (n - (L.length + 1)) := by
  have h1 : (L ++ [c]).length ≤ n := by simp; omega
  rw [show L ++ c :: t = (L ++ [c]) ++ t by simp, List.take_append_eq_append_take,
     List.take_of_length_le h1]
  simp

theorem scanTokensF_encodeLF (max : Nat) (ls : List (List Char)) :
    ∀ fuel, (encodeLF ls).length ≤ fuel →
      (∀ L ∈ ls, cleanLine L ∧ L.length + 1 ≤ max) →
      scanTokensF max fuel (encodeLF ls) = (ls, false) := by
  induction ls with
  | nil =>
    intro fuel _ _
    simp only [encodeLF]
    rw [scanTokensF_nil]
  | cons L ls' ih =>
    intro fuel hfuel h
    have hL := h L (by simp)
    have hls' : ∀ X ∈ ls', cleanLine X ∧ X.length + 1 ≤ max := fun X hX => h X (by simp [hX])
    have hlen : (encodeLF (L :: ls')).length = L.length + 1 + (encodeLF ls').length := by
      simp only [encodeLF, List.length_append, List.length_cons]
      omega
    cases fuel with
    | zero => rw [hlen] at hfuel; omega
    | succ f =>
      have hrest : (encodeLF ls').length ≤ f := by rw [hlen] at hfuel; omega
      simp only [encodeLF]
      by_cases hle : (L ++ '\n' :: encodeLF ls').length < max
      · rw [scanTokensF_some_small _ _ _ _ _ hle (splitFunc_lf _ _ _ hL.1),
           drop_after_line, ih f hrest hls']
      · have hsp : splitFunc ((L ++ '\n' :: encodeLF ls').take max) false
            = some (L.length + 1, L) := by
          rw [take_through_line _ _ _ _ hL.2]
          exact splitFunc_lf _ _ _ hL.1
        rw [scanTokensF_some_big _ _ _ _ _ hle hsp, drop_after_line, ih f hrest hls']

theorem scanTokens_encodeLF (max : Nat) (ls : List (List Char))
    (h : ∀ L ∈ ls, cleanLine L ∧ L.length + 1 ≤ max) :
    scanTokens max (encodeLF ls) = (ls, false) :=
  scanTokensF_encodeLF max ls _ le_rfl h

theorem scanTokens_clean_tail (max : Nat) (t : List Char) (h : cleanLine t) (hne : t ≠ [])
    (hlen : t.length < max) : scanTokens max t = ([t], false) := by
  obtain ⟨a, t', rfl⟩ : ∃ a t', t = a :: t' := by
    cases t with
    | nil => exact absurd rfl hne
    | cons a t' => exact ⟨a, t', rfl⟩
  rw [scanTokens, show (a :: t').length = t'.length + 1 from rfl,
     scanTokensF_some_small _ _ _ _ _ hlen (splitFunc_clean_eof _ h hne),
     show List.drop (a :: t').length (a :: t') = [] from List.drop_length _,
     scanTokensF_nil]

theorem scanTokens_nil (max : Nat) : scanTokens max [] = ([], false) := by
  rw [scanTokens, scanTokensF_nil]

theorem readFromPos_encodeLF (base : List Char) (c : List (List Char))
    (h : ∀ L ∈ c, cleanLine L ∧ L.length + 1 ≤ maxRecordSize) :
    readFromPos true (base ++ encodeLF c) base.length = ⟨c, (base ++ encodeLF c).length⟩ := by
  have hmax : Nat.max base.length (base ++ encodeLF c).length = (base ++ encodeLF c).length :=
    Nat.max_eq_right (by simp)
  simp only [readFromPos, if_true, List.drop_left, scanTokens_encodeLF maxRecordSize c h, hmax]
  rfl

theorem readFromPos_at_end (content : List Char) (pos : Nat) (h : content.length ≤ pos) :
    readFromPos true content pos = ⟨[], pos⟩ := by
  simp only [readFromPos, if_true, List.drop_eq_nil_of_le h, scanTokens_nil,
    Nat.max_eq_left h]
  rfl

theorem readFromPos_clean_tail (base t : List Char) (h : cleanLine t) (hne : t ≠ [])
    (hlen : t.length < maxRecordSize) :
    readFromPos true (base ++ t) base.length = ⟨[t], (base ++ t).length⟩ := by
  have hmax : Nat.max base.length (base ++ t).length = (base ++ t).length :=
    Nat.max_eq_right (by simp)
  simp only [readFromPos, if_true, List.drop_left,
    scanTokens_clean_tail maxRecordSize t h hne hlen, hmax]
  rfl

theorem tailStdPipe_snapshots (chunks : List (List (List Char)))
    (h : ∀ c ∈ chunks, ∀ L ∈ c, cleanLine L ∧ L.length + 1 ≤ maxRecordSize) :
    ∀ base acc, tailStdPipe base.length acc (snapshotEvents base chunks)
      = some (acc ++ chunks.flatten) := by
  induction chunks with
  | nil =>
    intro base acc
    simp only [snapshotEvents, tailStdPipe, readFromPos_at_end base base.length le_rfl]
    simp
  | cons c cs ih =>
    intro base acc
    have hc : ∀ L ∈ c, cleanLine L ∧ L.length + 1 ≤ maxRecordSize := h c (by simp)
    have hcs : ∀ x ∈ cs, ∀ L ∈ x, cleanLine L ∧ L.length + 1 ≤ maxRecordSize :=
      fun x hx => h x (by simp [hx])
    simp only [snapshotEvents, tailStdPipe, readFromPos_encodeLF base c hc]
    rw [show (base ++ encodeLF c).length = (base ++ encodeLF c).length from rfl]
    rw [ih hcs (base ++ encodeLF c) (acc ++ c)]
    simp

theorem applyOp_consistent (r : Registry) (op : RegOp) (h : registryConsistent r) :
    registryConsistent (applyOp r op) := by
  cases op with
  | start id pid so se bg t =>
    intro i k hk
    simp only [applyOp, getCommandKernel, storeCommandKernel] at hk
    split at hk
    · cases hk
      exact ⟨fun _ => ⟨rfl, rfl⟩, fun hfalse => by simp at hfalse⟩
    · exact h i k hk
  | finish id t code msg =>
    intro i k hk
    simp only [applyOp] at hk
    cases hg : getCommandKernel r id with
    | none =>
      rw [hg] at hk
      exact h i k hk
    | some k0 =>
      rw [hg] at hk
      simp only [getCommandKernel, storeCommandKernel] at hk
      split at hk
      · cases hk
        exact ⟨fun htrue => by simp at htrue, fun _ => by simp⟩
      · exact h i k hk

theorem runOps_consistent (ops : List RegOp) : registryConsistent (runOps ops) := by
  rw [runOps]
  have H : ∀ (l : List RegOp) (r : Registry), registryConsistent r →
      registryConsistent (l.foldl applyOp r) := by
    intro l
    induction l with
    | nil => exact fun r h => h
    | cons op l' ih => exact fun r h => ih _ (applyOp_consistent r op h)
  refine H ops emptyRegistry ?_
  intro i k hk
  simp [getCommandKernel, emptyRegistry] at hk

theorem runOps_absent (ops : List RegOp) (id : String) (h : ∀ op ∈ ops, op.sid ≠ id) :
    getCommandKernel (runOps ops) id = none := by
  rw [runOps]
  have H : ∀ (l : List RegOp) (r : Registry), (∀ op ∈ l, op.sid ≠ id) →
      getCommandKernel r id = none → getCommandKernel (l.foldl applyOp r) id = none := by
    intro l
    induction l with
    | nil => exact fun r _ hr => hr
    | cons op l' ih =>
      intro r hall hr
      refine ih _ (fun o ho => hall o (by simp [ho])) ?_
      cases op with
      | start id0 pid so se bg t =>
        have hs : (RegOp.start id0 pid so se bg t).sid ≠ id := hall _ (List.mem_cons_self _ _)
        have hne : id ≠ id0 := fun hh => hs (by simp [RegOp.sid, hh])
        simp only [applyOp, getCommandKernel, storeCommandKernel]
        rw [if_neg hne]
        exact hr
      | finish id0 t code msg =>
        have hs : (RegOp.finish id0 t code msg).sid ≠ id := hall _ (List.mem_cons_self _ _)
        have hne : id ≠ id0 := fun hh => hs (by simp [RegOp.sid, hh])
        simp only [applyOp]
        cases hg : getCommandKernel r id0 with
        | none => exact hr
        | some k0 =>
          have hstep : getCommandKernel (storeCommandKernel r id0
              { k0 with
                running := false,
                finishedAt := some t,
                exitCode := code,
                errMsg := msg }) id = none := by
            simp only [getCommandKernel, storeCommandKernel]
            rw [if_neg hne]
            exact hr
          exact hstep
  exact H ops emptyRegistry h rfl

theorem applyStores_absent (l : List (String × CommandKernel)) (id : String)
    (h : ∀ p ∈ l, p.1 ≠ id) : getCommandKernel (applyStores l) id = none := by
  rw [applyStores]
  have H : ∀ (l' : List (String × CommandKernel)) (r : Registry), (∀ p ∈ l', p.1 ≠ id) →
      getCommandKernel r id = none →
      getCommandKernel (l'.foldl (fun r p => storeCommandKernel r p.1 p.2) r) id = none := by
    intro l'
    induction l' with
    | nil => exact fun r _ hr => hr
    | cons p t ih =>
      intro r hall hr
      refine ih _ (fun q hq => hall q (by simp [hq])) ?_
      have hne : id ≠ p.1 := fun hh => hall p (by simp) hh.symm
      simp only [getCommandKernel, storeCommandKernel]
      rw [if_neg hne]
      exact hr
  exact H l emptyRegistry h rfl

/-- C1 counterexample: a foreground run of a command that prints the
single line "ab" (final file content `a b \n`), in which one ticker poll
observes the file while only "a" has been written, delivers the records
"a" and "b" instead of the single record "ab": delivery is not the
printed line sequence once a poll cycle lands inside a line. -/
theorem tailStdPipe_splits_line_across_polls :
    tailStdPipe 0 [] [TailEvent.tick true ['a'], TailEvent.doneSig true ['a', 'b', '\n']]
      = some [['a'], ['b']] ∧ [['a'], ['b']] ≠ [['a', 'b']] := by
  constructor
  · rfl
  · decide

/-- C1 (amended): for a foreground run whose command prints the lines
`chunks.flatten` and whose poll cycles each observe the capture file at a
record boundary (every snapshot extends the previous one by whole
`\n`-terminated lines, every line free of delimiter bytes and below the
record cap, every open succeeding), the Tailer delivers exactly those
lines, in file order, once each, across all poll cycles including the
final drain. -/
theorem tailStdPipe_delivers_lines_once_in_order (chunks : List (List (List Char)))
    (h : ∀ c ∈ chunks, ∀ L ∈ c, cleanLine L ∧ L.length + 1 ≤ maxRecordSize) :
    tailStdPipe 0 [] (snapshotEvents [] chunks) = some chunks.flatten := by
  have H := tailStdPipe_snapshots chunks h [] []
  simpa using H

/-- C1 (amended) witness at a concrete two-poll schedule delivering the
lines "hi", "yo", "z". -/
theorem tailStdPipe_delivers_lines_once_in_order_witness :
    tailStdPipe 0 [] (snapshotEvents [] [[['h', 'i']], [['y', 'o'], ['z']]])
      = some [['h', 'i'], ['y', 'o'], ['z']] :=
  tailStdPipe_delivers_lines_once_in_order [[['h', 'i']], [['y', 'o'], ['z']]] (by decide)

/-- C2: a `readFromPos` call that fails — the file cannot be opened, or
the scan fails (a record exceeding the maximum record size) — returns the
starting offset unchanged, so the next poll resumes from the same byte
position; a fully successful read from a position inside the file
advances the offset to the end-of-file position. -/
theorem readFromPos_offset_advance (openOk : Bool) (content : List Char) (startPos : Nat) :
    ((openOk = false ∨ (scanTokens maxRecordSize (content.drop startPos)).2 = true) →
      (readFromPos openOk content startPos).endPos = startPos) ∧
    (openOk = true → (scanTokens maxRecordSize (content.drop startPos)).2 = false →
      startPos ≤ content.length →
      (readFromPos openOk content startPos).endPos = content.length) := by
  constructor
  · intro h
    cases h with
    | inl h => subst h; rfl
    | inr h =>
      cases openOk with
      | false => rfl
      | true =>
        simp only [readFromPos, if_true]
        rw [h]
        rfl
  · intro ht herr hle
    subst ht
    simp only [readFromPos, if_true]
    rw [herr]
    simp [Nat.max_eq_right hle]

/-- C2 witness: a failed open at offset 1 keeps the offset at 1; a
successful read of "a\n" from offset 0 advances the offset to 2. -/
theorem readFromPos_offset_advance_witness :
    (readFromPos false ['a', 'b'] 1).endPos = 1 ∧ (readFromPos true ['a', '\n'] 0).endPos = 2 :=
  ⟨(readFromPos_offset_advance false ['a', 'b'] 1).1 (Or.inl rfl),
   (readFromPos_offset_advance true ['a', '\n'] 0).2 rfl (by decide) (by decide)⟩

/-- C4 counterexample: an ordinary poll cycle — a plain `readFromPos`
call, exactly what every ticker fire runs with no done signal observed —
emits the undelimited trailing bytes "ab" as a record; in a full run in
which the command prints the single line "abc", the tick at snapshot
"ab" delivers "ab" before done, splitting the line. -/
theorem readFromPos_emits_partial_tail :
    (readFromPos true ['a', 'b'] 0).emitted = [['a', 'b']] ∧
    tailStdPipe 0 [] [TailEvent.tick true ['a', 'b'], TailEvent.doneSig true ['a', 'b', 'c', '\n']]
      = some [['a', 'b'], ['c']] := by
  decide

/-- C4 (amended): a final partial record with no terminating delimiter
is emitted by every read that reaches the end of the currently available
data, whether or not the done signal has been observed: any `readFromPos`
call — ordinary poll or final drain — whose data after the offset is a
nonempty delimiter-free tail under the record cap emits that tail as a
record and advances the offset past it. The tail must be strictly below
the record cap: at or above the cap the scanner fails with `ErrTooLong`
before observing end of data, nothing is emitted and the offset stays. -/
theorem readFromPos_trailing_partial_emitted (base t : List Char) (h : cleanLine t)
    (hne : t ≠ []) (hlen : t.length < maxRecordSize) :
    (readFromPos true (base ++ t) base.length).emitted = [t] ∧
    (readFromPos true (base ++ t) base.length).endPos = (base ++ t).length := by
  rw [readFromPos_clean_tail base t h hne hlen]
  exact ⟨rfl, rfl⟩

/-- C4 (amended) witness: an ordinary poll at offset 2 of "x\nab" emits
the undelimited tail "ab". -/
theorem readFromPos_trailing_partial_emitted_witness :
    (readFromPos true (['x', '\n'] ++ ['a', 'b']) 2).emitted = [['a', 'b']] :=
  (readFromPos_trailing_partial_emitted ['x', '\n'] ['a', 'b']
    (by decide) (by decide) (by decide)).1

/-- C5: for every session present in the registry, `SeekOutput` with a
cursor equal to or greater than the current captured output length
returns an empty byte sequence with the unchanged cursor and does not
error; and any successful call is idempotent in its returned cursor —
calling again with the cursor it returned yields an empty result with
that same cursor until new data is appended. -/
theorem seekOutput_past_end_empty (r : Registry) (files : String → List Char)
    (sessionID : String) (cursor : Nat) (k : CommandKernel) (bytes : List Char) (c2 : Nat)
    (hk : getCommandKernel r sessionID = some k) :
    ((files k.stdoutPath).length ≤ cursor →
      SeekBackgroundCommandOutput r files sessionID cursor = Except.ok ([], cursor)) ∧
    (SeekBackgroundCommandOutput r files sessionID cursor = Except.ok (bytes, c2) →
      SeekBackgroundCommandOutput r files sessionID c2 = Except.ok ([], c2)) := by
  constructor
  · intro hc
    simp only [SeekBackgroundCommandOutput, hk, if_pos hc]
  · intro hcall
    simp only [SeekBackgroundCommandOutput, hk] at hcall ⊢
    by_cases hc : (files k.stdoutPath).length ≤ cursor
    · rw [if_pos hc] at hcall
      have hc2 : c2 = cursor := by
        simp only [Except.ok.injEq, Prod.mk.injEq] at hcall
        exact hcall.2.symm
      subst hc2
      rw [if_pos hc]
    · rw [if_neg hc] at hcall
      have hc2 : c2 = (files k.stdoutPath).length := by
        simp only [Except.ok.injEq, Prod.mk.injEq] at hcall
        exact hcall.2.symm
      subst hc2
      rw [if_pos le_rfl]

/-- C5 witness: a finished background session with 2 captured bytes,
queried at cursor 5, returns an empty result with cursor 5. -/
theorem seekOutput_past_end_empty_witness :
    SeekBackgroundCommandOutput
      (storeCommandKernel emptyRegistry "s" ⟨7, "out", "err", true, 1, some 2, some 0, "", false⟩)
      (fun p => if p = "out" then ['x', 'y'] else []) "s" 5 = Except.ok ([], 5) :=
  (seekOutput_past_end_empty
    (storeCommandKernel emptyRegistry "s" ⟨7, "out", "err", true, 1, some 2, some 0, "", false⟩)
    (fun p => if p = "out" then ['x', 'y'] else []) "s" 5
    ⟨7, "out", "err", true, 1, some 2, some 0, "", false⟩ [] 5 (by decide)).1 (by decide)

/-- C6: in every registry state reachable by engine operations, a stored
kernel has no `finishedAt` and no `exitCode` while `running` is true,
has a `finishedAt` (the `exitCode` may be absent) once `running` is
false, and `GetCommandStatus` on its session reflects exactly these
kernel fields. -/
theorem kernel_lifecycle_invariant (ops : List RegOp) (sessionID : String) (k : CommandKernel)
    (hk : getCommandKernel (runOps ops) sessionID = some k) :
    (k.running = true → k.finishedAt = none ∧ k.exitCode = none) ∧
    (k.running = false → k.finishedAt ≠ none) ∧
    GetCommandStatus (runOps ops) sessionID = Except.ok
      { session := sessionID
        running := k.running
        exitCode := k.exitCode
        startedAt := k.startedAt
        finishedAt := k.finishedAt
        errMsg := k.errMsg } := by
  have hcons := runOps_consistent ops sessionID k hk
  exact ⟨hcons.1, hcons.2, by simp only [GetCommandStatus, hk]⟩

/-- C6 witness: a session started at tick 3 and finished at tick 8 with
exit code 0 reports exactly those fields through `GetCommandStatus`. -/
theorem kernel_lifecycle_invariant_witness :
    GetCommandStatus
      (runOps [RegOp.start "s" 9 "o" "e" false 3, RegOp.finish "s" 8 (some 0) ""]) "s"
      = Except.ok
        { session := "s"
          running := false
          exitCode := some 0
          startedAt := 3
          finishedAt := some 8
          errMsg := "" } :=
  (kernel_lifecycle_invariant [RegOp.start "s" 9 "o" "e" false 3, RegOp.finish "s" 8 (some 0) ""]
    "s" ⟨9, "o", "e", false, 3, some 8, some 0, "", false⟩ (by decide)).2.2

/-- C7: a session id targeted by no engine operation is absent from the
registry, and `GetCommandStatus` on it fails with a not-found error
rather than crashing or returning a default status. -/
theorem getStatus_unknown_session_fails (ops : List RegOp) (sessionID : String)
    (h : ∀ op ∈ ops, op.sid ≠ sessionID) :
    getCommandKernel (runOps ops) sessionID = none ∧
    GetCommandStatus (runOps ops) sessionID
      = Except.error ("session not found: " ++ sessionID) := by
  have habs := runOps_absent ops sessionID h
  exact ⟨habs, by simp only [GetCommandStatus, habs]⟩

/-- C7 witness: with only session "a" ever started, status of "b" is the
not-found error. -/
theorem getStatus_unknown_session_fails_witness :
    GetCommandStatus (runOps [RegOp.start "a" 1 "o" "e" false 0]) "b"
      = Except.error ("session not found: " ++ "b") :=
  (getStatus_unknown_session_fails [RegOp.start "a" 1 "o" "e" false 0] "b" (by decide)).2

/-- C8: once the done signal fires after any sequence of ticker polls,
the loop performs exactly one final drain read and terminates: the run's
result exists (the loop returns) and is unchanged by any events that
would follow the done signal. -/
theorem tailStdPipe_done_single_drain (pre post : List TailEvent) (ok : Bool) (s : List Char)
    (h : ∀ e ∈ pre, e.isTick = true) :
    tailStdPipe 0 [] (pre ++ TailEvent.doneSig ok s :: post)
      = tailStdPipe 0 [] (pre ++ [TailEvent.doneSig ok s]) ∧
    (tailStdPipe 0 [] (pre ++ [TailEvent.doneSig ok s])).isSome = true := by
  have H : ∀ (pre' : List TailEvent) (pos : Nat) (acc : List (List Char)),
      (∀ e ∈ pre', e.isTick = true) →
      tailStdPipe pos acc (pre' ++ TailEvent.doneSig ok s :: post)
        = tailStdPipe pos acc (pre' ++ [TailEvent.doneSig ok s]) ∧
      (tailStdPipe pos acc (pre' ++ [TailEvent.doneSig ok s])).isSome = true := by
    intro pre'
    induction pre' with
    | nil => exact fun pos acc _ => ⟨rfl, rfl⟩
    | cons e rest ih =>
      intro pos acc hall
      cases e with
      | tick ok0 s0 =>
        simp only [List.cons_append, tailStdPipe]
        exact ih _ _ (fun x hx => hall x (by simp [hx]))
      | doneSig ok0 s0 =>
        have hbad := hall (TailEvent.doneSig ok0 s0) (by simp)
        simp [TailEvent.isTick] at hbad
  exact H pre 0 [] h

/-- C8 witness: one tick, then done, then a stray event that is never
processed. -/
theorem tailStdPipe_done_single_drain_witness :
    tailStdPipe 0 []
        ([TailEvent.tick true ['a', '\n']] ++ TailEvent.doneSig true ['a', '\n'] ::
          [TailEvent.tick true ['z']])
      = tailStdPipe 0 [] ([TailEvent.tick true ['a', '\n']] ++ [TailEvent.doneSig true ['a', '\n']]) :=
  (tailStdPipe_done_single_drain [TailEvent.tick true ['a', '\n']] [TailEvent.tick true ['z']]
    true ['a', '\n'] (by decide)).1

/-- C9: storing a kernel and reading the same id returns exactly that
kernel; the store leaves every other id unchanged; and a lookup of an id
never stored returns the absent value. -/
theorem registry_store_get_roundtrip (r : Registry) (id id2 : String) (k : CommandKernel)
    (stores : List (String × CommandKernel)) (h1 : id2 ≠ id) (h2 : ∀ p ∈ stores, p.1 ≠ id) :
    getCommandKernel (storeCommandKernel r id k) id = some k ∧
    getCommandKernel (storeCommandKernel r id k) id2 = getCommandKernel r id2 ∧
    getCommandKernel (applyStores stores) id = none := by
  refine ⟨?_, ?_, applyStores_absent stores id h2⟩
  · simp [getCommandKernel, storeCommandKernel]
  · simp [getCommandKernel, storeCommandKernel, h1]

/-- C9 witness at concrete ids and kernels. -/
theorem registry_store_get_roundtrip_witness :
    getCommandKernel (storeCommandKernel emptyRegistry "a"
        ⟨1, "o", "e", false, 0, none, none, "", true⟩) "a"
      = some ⟨1, "o", "e", false, 0, none, none, "", true⟩ ∧
    getCommandKernel (applyStores [("c", ⟨2, "o", "e", true, 0, none, none, "", true⟩)]) "a"
      = none := by
  have H := registry_store_get_roundtrip emptyRegistry "a" "b"
    ⟨1, "o", "e", false, 0, none, none, "", true⟩
    [("c", ⟨2, "o", "e", true, 0, none, none, "", true⟩)] (by decide) (by decide)
  exact ⟨H.1, H.2.2⟩

/-- C10: whenever integer parsing of the cursor query string fails — the
parameter is missing (empty string) or non-numeric — `QueryInt64` with
default 0, as called by the seek handler, returns cursor 0 rather than
rejecting the request. -/
theorem queryInt64_default_on_invalid (s : String) (h : parseInt64 s = none) :
    QueryInt64 s 0 = 0 := by
  simp only [QueryInt64, h]

/-- C10 witness: a missing cursor (empty query) and a non-numeric cursor
both yield 0. -/
theorem queryInt64_default_on_invalid_witness :
    QueryInt64 "" 0 = 0 ∧ QueryInt64 "abc" 0 = 0 :=
  ⟨queryInt64_default_on_invalid "" (by decide),
   queryInt64_default_on_invalid "abc" (by decide)⟩

theorem splitFunc_cr_end (L : List Char) (atEOF : Bool) (h : cleanLine L) :
    splitFunc (L ++ ['\r']) atEOF = some (L.length + 1, L) := by
  induction L with
  | nil => simp [splitFunc]
  | cons b L' ih =>
    have hb := h b (by simp)
    have hL' : cleanLine L' := fun c hc => h c (by simp [hc])
    simp only [List.cons_append, splitFunc, if_neg hb.1, if_neg hb.2, List.append_eq]
    rw [ih hL']
    rfl

theorem isEmpty_append_cons (l : List Char) (c : Char) (t : List Char) :
    (l ++ c :: t).isEmpty = false := by
  cases l <;> rfl

theorem scanLoopF_token (max fuel : Nat) (buffered : List Char) (bufCap : Nat)
    (remaining : List Char) (atEOF : Bool) (adv : Nat) (tok : List Char)
    (hsp : splitFunc buffered atEOF = some (adv, tok)) :
    scanLoopF max (fuel + 1) buffered bufCap remaining atEOF =
      (tok :: (scanLoopF max fuel (buffered.drop adv) bufCap remaining atEOF).1,
        (scanLoopF max fuel (buffered.drop adv) bufCap remaining atEOF).2) := by
  simp only [scanLoopF]
  rw [hsp]

theorem scanLoopF_stop (max fuel : Nat) (buffered : List Char) (bufCap : Nat)
    (remaining : List Char) (hsp : splitFunc buffered true = none) :
    scanLoopF max (fuel + 1) buffered bufCap remaining true = ([], false) := by
  simp only [scanLoopF]
  rw [hsp]
  rfl

theorem scanLoopF_read (max fuel : Nat) (buffered : List Char) (bufCap : Nat)
    (remaining : List Char) (hsp : splitFunc buffered false = none)
    (hcap : ¬ buffered.length = bufCap) (hrem : ¬ remaining.isEmpty = true) :
    scanLoopF max (fuel + 1) buffered bufCap remaining false =
      scanLoopF max fuel (buffered ++ remaining.take (bufCap - buffered.length)) bufCap
        (remaining.drop (bufCap - buffered.length)) false := by
  simp only [scanLoopF]
  rw [hsp]
  simp only [Bool.false_eq_true, if_false, if_neg hcap, if_neg hrem]

theorem scanLoopF_toEOF (max fuel : Nat) (buffered : List Char) (bufCap : Nat)
    (hsp : splitFunc buffered false = none) (hcap : ¬ buffered.length = bufCap) :
    scanLoopF max (fuel + 1) buffered bufCap [] false =
      scanLoopF max fuel buffered bufCap [] true := by
  simp only [scanLoopF]
  rw [hsp]
  simp only [Bool.false_eq_true, if_false, if_neg hcap, List.isEmpty_nil, if_true]

theorem scanLoopF_nil_eof (max fuel bufCap : Nat) (remaining : List Char) :
    scanLoopF max fuel [] bufCap remaining true = ([], false) := by
  cases fuel with
  | zero => rfl
  | succ f => exact scanLoopF_stop _ _ _ _ _ rfl

theorem encodeLF_length_le (ls : List (List Char)) :
    (encodeLF ls).length ≤ (encodeCRLF ls).length := by
  induction ls with
  | nil => simp [encodeLF, encodeCRLF]
  | cons L ls' ih =>
    simp only [encodeLF, encodeCRLF, List.length_append, List.length_cons]
    omega

theorem encodeCRLF_ne_nil (L : List Char) (ls : List (List Char)) :
    encodeCRLF (L :: ls) ≠ [] := by
  simp [encodeCRLF]

theorem encodeLF_ne_nil (L : List Char) (ls : List (List Char)) :
    encodeLF (L :: ls) ≠ [] := by
  simp [encodeLF]

theorem scanLoopF_drain_crlf (ls : List (List Char)) (hclean : ∀ L ∈ ls, cleanLine L) :
    ∀ fuel bufCap, (encodeCRLF ls).length + 1 ≤ fuel → 0 < bufCap →
      scanLoopF maxRecordSize fuel (encodeCRLF ls) bufCap [] false = (ls, false) := by
  induction ls with
  | nil =>
    intro fuel bufCap hfuel hcap
    obtain ⟨f, rfl⟩ : ∃ f, fuel = f + 1 := ⟨fuel - 1, by omega⟩
    simp only [encodeCRLF]
    rw [scanLoopF_toEOF _ _ _ _ (rfl : splitFunc [] false = none) (by simp only [List.length_nil]; omega)]
    exact scanLoopF_nil_eof _ _ _ _
  | cons L ls' ih =>
    intro fuel bufCap hfuel hcap
    have hL : cleanLine L := hclean L (by simp)
    have hls' : ∀ X ∈ ls', cleanLine X := fun X hX => hclean X (by simp [hX])
    have hlen : (encodeCRLF (L :: ls')).length = L.length + 2 + (encodeCRLF ls').length := by
      simp only [encodeCRLF, List.length_append, List.length_cons]
      omega
    obtain ⟨f, rfl⟩ : ∃ f, fuel = f + 1 := ⟨fuel - 1, by omega⟩
    simp only [encodeCRLF]
    rw [scanLoopF_token _ _ _ _ _ _ _ _ (splitFunc_crlf L _ false hL), drop_after_crlf,
       ih hls' f bufCap (by rw [hlen] at hfuel; omega) hcap]

theorem scanLoopF_drain_lf (ls : List (List Char)) (hclean : ∀ L ∈ ls, cleanLine L) :
    ∀ fuel bufCap, (encodeLF ls).length + 1 ≤ fuel → 0 < bufCap →
      scanLoopF maxRecordSize fuel (encodeLF ls) bufCap [] false = (ls, false) := by
  induction ls with
  | nil =>
    intro fuel bufCap hfuel hcap
    obtain ⟨f, rfl⟩ : ∃ f, fuel = f + 1 := ⟨fuel - 1, by omega⟩
    simp only [encodeLF]
    rw [scanLoopF_toEOF _ _ _ _ (rfl : splitFunc [] false = none) (by simp only [List.length_nil]; omega)]
    exact scanLoopF_nil_eof _ _ _ _
  | cons L ls' ih =>
    intro fuel bufCap hfuel hcap
    have hL : cleanLine L := hclean L (by simp)
    have hls' : ∀ X ∈ ls', cleanLine X := fun X hX => hclean X (by simp [hX])
    have hlen : (encodeLF (L :: ls')).length = L.length + 1 + (encodeLF ls').length := by
      simp only [encodeLF, List.length_append, List.length_cons]
      omega
    obtain ⟨f, rfl⟩ : ∃ f, fuel = f + 1 := ⟨fuel - 1, by omega⟩
    simp only [encodeLF]
    rw [scanLoopF_token _ _ _ _ _ _ _ _ (splitFunc_lf L _ false hL), drop_after_line,
       ih hls' f bufCap (by rw [hlen] at hfuel; omega) hcap]

theorem scannerRun_nil :
    scannerRun maxRecordSize initialScanWindow [] = ([], false) := by
  rw [scannerRun, show 2 * ([] : List Char).length + 8 = 7 + 1 from rfl,
     scanLoopF_toEOF _ _ _ _ (rfl : splitFunc [] false = none) (by simp [initialScanWindow])]
  exact scanLoopF_nil_eof _ _ _ _

theorem scannerRun_load (content : List Char) (hne : content ≠ [])
    (hsize : content.length ≤ initialScanWindow) :
    scannerRun maxRecordSize initialScanWindow content
      = scanLoopF maxRecordSize (2 * content.length + 7) content initialScanWindow [] false := by
  rw [scannerRun, show 2 * content.length + 8 = (2 * content.length + 7) + 1 from rfl,
     scanLoopF_read _ _ _ _ _ (rfl : splitFunc [] false = none) (by simp [initialScanWindow]) (by simp [hne])]
  simp [List.take_of_length_le hsize, List.drop_eq_nil_of_le hsize]

theorem cleanLine_replicate (n : Nat) : cleanLine (List.replicate n 'a') := by
  intro c hc
  rw [List.eq_of_mem_replicate hc]
  exact ⟨by decide, by decide⟩

theorem scanLoopF_cex_crlf (L : List Char) (hclean : cleanLine L) (hlen : L.length = 65535) :
    ∀ fuel, 5 ≤ fuel →
      scanLoopF maxRecordSize fuel [] initialScanWindow (L ++ '\r' :: '\n' :: []) false
        = ([L, []], false) := by
  intro fuel hfuel
  obtain ⟨f, rfl⟩ : ∃ f, fuel = f + 5 := ⟨fuel - 5, by omega⟩
  have h64 : (L ++ ['\r']).length = initialScanWindow := by
    simp [hlen, initialScanWindow]
  have hC : L ++ '\r' :: '\n' :: ([] : List Char) = (L ++ ['\r']) ++ ['\n'] := by simp
  rw [show f + 5 = (f + 4) + 1 from rfl,
     scanLoopF_read _ _ _ _ _ (rfl : splitFunc [] false = none)
       (by simp [initialScanWindow]) (by rw [isEmpty_append_cons]; exact Bool.false_ne_true)]
  simp only [List.length_nil, Nat.sub_zero, List.nil_append]
  rw [hC, List.take_left' h64, List.drop_left' h64]
  have hsp2 : splitFunc (L ++ ['\r']) false = some ((L ++ ['\r']).length, L) := by
    rw [splitFunc_cr_end L false hclean]
    simp
  rw [show f + 4 = (f + 3) + 1 from rfl, scanLoopF_token _ _ _ _ _ _ _ _ hsp2,
     List.drop_length]
  rw [show f + 3 = (f + 2) + 1 from rfl,
     scanLoopF_read _ _ _ _ _ (rfl : splitFunc [] false = none)
       (by simp [initialScanWindow]) (by simp)]
  simp only [List.length_nil, Nat.sub_zero, List.nil_append]
  rw [List.take_of_length_le (by simp [initialScanWindow]),
     List.drop_eq_nil_of_le (by simp [initialScanWindow])]
  rw [show f + 2 = (f + 1) + 1 from rfl,
     scanLoopF_token _ _ _ _ _ _ _ _ (rfl : splitFunc ['\n'] false = some (1, [])),
     show List.drop 1 ['\n'] = ([] : List Char) from rfl]
  rw [scanLoopF_toEOF _ _ _ _ (rfl : splitFunc [] false = none) (by simp [initialScanWindow]),
     scanLoopF_nil_eof]

theorem scanLoopF_cex_lf (L : List Char) (hclean : cleanLine L) (hlen : L.length = 65535) :
    ∀ fuel, 4 ≤ fuel →
      scanLoopF maxRecordSize fuel [] initialScanWindow (L ++ '\n' :: []) false
        = ([L], false) := by
  intro fuel hfuel
  obtain ⟨f, rfl⟩ : ∃ f, fuel = f + 4 := ⟨fuel - 4, by omega⟩
  have h64 : (L ++ ['\n']).length = initialScanWindow := by
    simp [hlen, initialScanWindow]
  rw [show f + 4 = (f + 3) + 1 from rfl,
     scanLoopF_read _ _ _ _ _ (rfl : splitFunc [] false = none)
       (by simp [initialScanWindow]) (by rw [isEmpty_append_cons]; exact Bool.false_ne_true)]
  simp only [List.length_nil, Nat.sub_zero, List.nil_append]
  rw [show L ++ '\n' :: ([] : List Char) = (L ++ ['\n']) ++ [] by simp,
     List.take_left' h64, List.drop_left' h64]
  rw [show f + 3 = (f + 2) + 1 from rfl,
     scanLoopF_token _ _ _ _ _ _ _ _ (splitFunc_lf L [] false hclean), drop_after_line]
  rw [show f + 2 = (f + 1) + 1 from rfl,
     scanLoopF_toEOF _ _ _ _ (rfl : splitFunc [] false = none) (by simp [initialScanWindow]),
     scanLoopF_nil_eof]

/-- C3 counterexample: a clean 65535-character line is within every
bound of the delimiter-normalization claim, yet with the scanner's real
64KB read windows its `\r\n` termination straddles the first window
boundary: the split function sees the `\r` as the last byte of the
window and, with no following byte available, consumes it alone; the
next window begins with `\n`, which yields an empty record. The CRLF
content scans to the line followed by an empty record while the LF
content of the same line scans to just the line, so `\r\n`-terminated
input does not produce the same record sequence as `\n`-terminated
input, and an empty intervening record is emitted. -/
theorem scanner_crlf_window_straddle :
    scannerRun maxRecordSize initialScanWindow (encodeCRLF [List.replicate 65535 'a'])
      = ([List.replicate 65535 'a', []], false) ∧
    scannerRun maxRecordSize initialScanWindow (encodeLF [List.replicate 65535 'a'])
      = ([List.replicate 65535 'a'], false) ∧
    ([List.replicate 65535 'a', []] : List (List Char)) ≠ [List.replicate 65535 'a'] ∧
    cleanLine (List.replicate 65535 'a') ∧
    (List.replicate 65535 'a').length + 2 ≤ maxRecordSize := by
  refine ⟨?_, ?_, ?_, cleanLine_replicate 65535, by rw [List.length_replicate]; decide⟩
  · simp only [scannerRun, encodeCRLF]
    exact scanLoopF_cex_crlf _ (cleanLine_replicate 65535) (by rw [List.length_replicate]) _
      (by omega)
  · simp only [scannerRun, encodeLF]
    exact scanLoopF_cex_lf _ (cleanLine_replicate 65535) (by rw [List.length_replicate]) _
      (by omega)
  · intro h
    have hln := congrArg List.length h
    simp only [List.length_cons, List.length_nil] at hln
    omega

/-- C3 (amended): the scanner splits on `\n` or `\r` and treats a `\r\n`
pair within one read window as a single delimiter that never yields an
empty intervening record; consequently, for every content whose encoded
length fits in the scanner's initial 64KB read window, input terminated
by `\r\n` line endings yields exactly the same record sequence as the
same content terminated by `\n` line endings — the lines themselves.
Beyond one window the equivalence can fail: a `\r\n` pair straddling a
read-window boundary yields an extra empty record (see the
counterexample). -/
theorem scanner_crlf_lf_agree_small (ls : List (List Char))
    (hclean : ∀ L ∈ ls, cleanLine L)
    (hsize : (encodeCRLF ls).length ≤ initialScanWindow) :
    scannerRun maxRecordSize initialScanWindow (encodeCRLF ls) = (ls, false) ∧
    scannerRun maxRecordSize initialScanWindow (encodeLF ls) = (ls, false) := by
  have hwin : (0 : Nat) < initialScanWindow := by simp [initialScanWindow]
  cases ls with
  | nil =>
    constructor
    · simp only [encodeCRLF]
      exact scannerRun_nil
    · simp only [encodeLF]
      exact scannerRun_nil
  | cons L ls' =>
    constructor
    · rw [scannerRun_load _ (encodeCRLF_ne_nil L ls') hsize,
         scanLoopF_drain_crlf _ hclean _ _ (by omega) hwin]
    · have hsizeLF : (encodeLF (L :: ls')).length ≤ initialScanWindow :=
        le_trans (encodeLF_length_le _) hsize
      rw [scannerRun_load _ (encodeLF_ne_nil L ls') hsizeLF,
         scanLoopF_drain_lf _ hclean _ _ (by omega) hwin]

/-- C3 (amended) witness: the lines "ok", "go" give identical records
under `\r\n` and `\n` termination. -/
theorem scanner_crlf_lf_agree_small_witness :
    scannerRun maxRecordSize initialScanWindow (encodeCRLF [['o', 'k'], ['g', 'o']])
      = ([['o', 'k'], ['g', 'o']], false) ∧
    scannerRun maxRecordSize initialScanWindow (encodeLF [['o', 'k'], ['g', 'o']])
      = ([['o', 'k'], ['g', 'o']], false) :=
  scanner_crlf_lf_agree_small [['o', 'k'], ['g', 'o']] (by decide) (by decide)
